import Mathlib

/-!
Verification model of the coursebuild.it video-processing pipeline.

The definitions below are shallow embeddings of:
- the Supabase edge function init-segmented-processing (src/unnamed/part_002):
  ISO-8601 duration parsing, video-id extraction, duration-based segment
  splitting, short-last-segment merging and per-segment question budgeting;
- the Next.js API route analyze-video-smart
  (src/src/pages/api/course/analyze-video-smart.ts): URL validation, course
  cache lookup, progress upserts and the timeout handling around the hand-off
  call to the edge function;
- the Next.js API route for course ratings
  (src/src/pages/api/courses/[id]/rating.ts).

Durations are modelled as natural numbers of seconds (the code obtains them
from an integer-valued ISO-8601 parse), effectful calls (YouTube API, fetch,
database) are modelled by passing their results as values, and database
tables are modelled as lists of rows.
-/

/-- String constants used by the sources (kept as named definitions). -/
def stInitialization : String := "initialization"

def stFailed : String := "failed"

def stPlanning : String := "planning"

def stepAnalyzing : String := "Analyzing video for optimal processing"

def stepBackground : String := "Processing started in background - this may take a few minutes"

def stepInitFailed : String := "Processing initialization failed"

def stepSystemError : String := "System error occurred"

def stepSegmentOf : String := "Processing segment 1 of "

def stepStartSegmented : String := "Starting segmented processing"

def stepStartSingle : String := "Starting single segment processing"

def watchUrlBase : String := "https://www.youtube.com/watch?v="

def patWatch : String := "youtube.com/watch?v="

def patShort : String := "youtu.be/"

def patEmbed : String := "youtube.com/embed/"

def patWatchQ : String := "youtube.com/watch?"

/-- Math.ceil division on naturals: for positive b this is the JS
Math.ceil(a / b) used by the edge function (part_002 lines 131, 238). -/
def ceilDiv (a b : ℕ) : ℕ := (a + b - 1) / b

/-- Digits-to-number conversion, the JS parseInt on a digit string
(part_002 lines 35-37). -/
def charsToNat (cs : List Char) : ℕ :=
  cs.foldl (fun a c => a * 10 + (c.toNat - 48)) 0

/-- One optional regex group (\d+)X of the ISO-8601 duration regex
(part_002 line 30): a maximal digit run must be directly followed by the
letter, otherwise the group matches empty and consumes nothing. -/
def grabGroup (letter : Char) (cs : List Char) : ℕ × List Char :=
  let ds := cs.takeWhile Char.isDigit
  let rest := cs.drop ds.length
  if ds.isEmpty then (0, cs)
  else
    match rest with
    | c :: rest2 => if c = letter then (charsToNat ds, rest2) else (0, cs)
    | [] => (0, cs)

/-- Unanchored search for the literal PT of the duration regex: the regex
match starts at the first occurrence of PT. -/
def findPT : List Char → Option (List Char)
  | [] => none
  | c :: rest =>
    if c = 'P' then
      match rest with
      | c2 :: rest2 => if c2 = 'T' then some rest2 else findPT rest
      | [] => none
    else findPT rest

/-- parseISO8601Duration (part_002 lines 29-40): applies the regex
PT(?:(\d+)H)?(?:(\d+)M)?(?:(\d+)S)? and returns h*3600 + m*60 + s, or 0
when the regex does not match (no PT occurs in the string). -/
def parseISO8601Duration (s : String) : ℕ :=
  match findPT s.data with
  | none => 0
  | some rest =>
    let hg := grabGroup 'H' rest
    let mg := grabGroup 'M' hg.2
    let sg := grabGroup 'S' mg.2
    hg.1 * 3600 + mg.1 * 60 + sg.1

/-- The character class [^&\n?#] excluded by both YouTube-URL regexes. -/
def isYouTubeDelim (c : Char) : Bool :=
  decide (c = '&') || decide (c = '\n') || decide (c = '?') || decide (c = '#')

/-- Try one alternative of the video-id regex at the current position: the
literal pattern followed by a non-empty maximal run of non-delimiter
characters (the capture group). -/
def captureAfter (pat : List Char) (cs : List Char) : Option (List Char) :=
  if pat.isPrefixOf cs then
    let cap := (cs.drop pat.length).takeWhile (fun c => !isYouTubeDelim c)
    if cap.isEmpty then none else some cap
  else none

/-- Unanchored search of the regex
(?:youtube\.com\/watch\?v=|youtu\.be\/|youtube\.com\/embed\/)([^&\n?#]+)
shared by extractVideoId (part_002 lines 22-26) and the first pattern of
isValidYouTubeUrl (analyze-video-smart.ts line 11); returns the first
capture. The three alternatives are mutually exclusive at any position. -/
def matchPattern1 : List Char → Option (List Char)
  | [] => none
  | c :: rest =>
    match captureAfter patWatch.data (c :: rest) with
    | some cap => some cap
    | none =>
      match captureAfter patShort.data (c :: rest) with
      | some cap => some cap
      | none =>
        match captureAfter patEmbed.data (c :: rest) with
        | some cap => some cap
        | none => matchPattern1 rest

/-- extractVideoId of the edge function (part_002 lines 22-26): the first
capture of the regex above, or null when it does not match. -/
def extractVideoId (url : String) : Option String :=
  match matchPattern1 url.data with
  | some cap => some (String.mk cap)
  | none => none

/-- Scan for v=([^&\n?#]+) reachable through .* (which cannot cross a
newline) in the second pattern of isValidYouTubeUrl
(analyze-video-smart.ts line 12). -/
def findVMatch : List Char → Bool
  | 'v' :: '=' :: d :: tail =>
    if !isYouTubeDelim d then true else findVMatch ('=' :: d :: tail)
  | '\n' :: _ => false
  | _ :: tail => findVMatch tail
  | [] => false

/-- Unanchored search of the regex youtube\.com\/watch\?.*v=([^&\n?#]+),
the second pattern of isValidYouTubeUrl (analyze-video-smart.ts line 12). -/
def matchPattern2 : List Char → Bool
  | [] => false
  | c :: rest =>
    (patWatchQ.data.isPrefixOf (c :: rest) &&
      findVMatch ((c :: rest).drop patWatchQ.data.length))
    || matchPattern2 rest

/-- isValidYouTubeUrl (analyze-video-smart.ts lines 9-23): true when either
pattern matches. -/
def isValidYouTubeUrl (url : String) : Bool :=
  (matchPattern1 url.data).isSome || matchPattern2 url.data

/-- The edge function throws Invalid YouTube URL exactly when extractVideoId
returns null (part_002 lines 106-109). -/
def serveRejectsUrl (url : String) : Bool :=
  (extractVideoId url).isNone

/-- Modelled from the spec: sanitizeYouTubeUrl
(analyze-video-smart.ts lines 26-39) delegates to an extractVideoId helper
from src/utils/youtube, a file absent from the sources; the helper is
modelled as the edge function extractVideoId, which uses the identical
regex to the first validation pattern. The sanitizer rebuilds the core
watch URL from the extracted id, or returns the input unchanged when no id
can be extracted. -/
def sanitizeYouTubeUrl (url : String) : String :=
  match extractVideoId url with
  | some vid => watchUrlBase ++ vid
  | none => url

/-- Default applied by destructuring in the edge function request
(part_002 line 91) and in the analyze handler body (line 53). -/
def reqSegmentDuration (v : Option ℕ) : ℕ := v.getD 300

/-- Default applied by destructuring in the edge function request
(part_002 line 90). -/
def reqMaxQuestions (v : Option ℕ) : ℕ := v.getD 5

/-- totalDuration (part_002 line 115): videoDuration || 1800, where a
duration of 0 is falsy in JS and therefore replaced by the 1800 default
exactly like a null. -/
def totalDuration (videoDuration : Option ℕ) : ℕ :=
  match videoDuration with
  | some n => if n ≠ 0 then n else 1800
  | none => 1800

/-- shouldSegment (part_002 lines 116-124): if (videoDuration) tests JS
truthiness, so a returned duration of 0 falls into the unknown-duration
branch and forces segmentation. -/
def shouldSegment (videoDuration : Option ℕ) (segmentDuration : ℕ) : Bool :=
  match videoDuration with
  | some n => if n ≠ 0 then decide (segmentDuration < n) else true
  | none => true

/-- A segment interval in seconds, as pushed into rawSegments
(part_002 lines 245-250). -/
structure RawSegment where
  startTime : ℕ
  endTime : ℕ
deriving DecidableEq, Repr

/-- Body of the raw-segment loop (part_002 lines 246-250): segment i covers
i*segment_duration up to min((i+1)*segment_duration, totalDuration). -/
def segOf (s D : ℕ) (i : ℕ) : RawSegment :=
  ⟨i * s, min ((i + 1) * s) D⟩

/-- rawSegments (part_002 lines 237-250): one entry per loop index
0 <= i < Math.ceil(totalDuration / segment_duration). -/
def rawSegments (D s : ℕ) : List RawSegment :=
  (List.range (ceilDiv D s)).map (segOf s D)

/-- Overwrite the endTime of the last list entry (part_002 line 262:
rawSegments[rawSegments.length - 1].endTime = totalDuration). -/
def setLastEnd (D : ℕ) : List RawSegment → List RawSegment
  | [] => []
  | [a] => [⟨a.startTime, D⟩]
  | a :: b :: rest => a :: setLastEnd D (b :: rest)

/-- The short-last-segment merge heuristic (part_002 lines 252-264): when
there is more than one raw segment and the last one is shorter than 20
seconds, pop it and extend the new last segment to the total duration. -/
def mergeShortLast (D : ℕ) (segs : List RawSegment) : List RawSegment :=
  if 1 < segs.length then
    match segs.getLast? with
    | some last =>
      if last.endTime - last.startTime < 20 then setLastEnd D segs.dropLast
      else segs
    | none => segs
  else segs

/-- The segments the edge function stores for a course: the single
full-video segment when shouldSegment is false (part_002 lines 144-155),
otherwise the raw split after the merge heuristic
(part_002 lines 237-283). -/
def finalSegments (vd : Option ℕ) (s : ℕ) : List RawSegment :=
  if shouldSegment vd s then
    mergeShortLast (totalDuration vd) (rawSegments (totalDuration vd) s)
  else [⟨0, totalDuration vd⟩]

/-- expectedQuestions for one segment (part_002 lines 269-270):
Math.min(Math.ceil(length / 60), max_questions_per_segment). -/
def expectedQuestions (maxQ : ℕ) (seg : RawSegment) : ℕ :=
  min (ceilDiv (seg.endTime - seg.startTime) 60) maxQ

/-- totalExpectedQuestions accumulated over the segment loop
(part_002 lines 242, 267-271). -/
def totalExpectedQuestions (maxQ : ℕ) (segs : List RawSegment) : ℕ :=
  segs.foldl (fun acc seg => acc + expectedQuestions maxQ seg) 0

/-- The timeline-partition property claimed for the stored segments: the
list is non-empty, starts at 0, each end time meets the next start time,
it ends at the full duration, every segment is non-degenerate, and no two
segments overlap. -/
def partitionsTimeline (D : ℕ) (segs : List RawSegment) : Prop :=
  segs ≠ [] ∧
  (∀ i : Fin segs.length, i.val = 0 → (segs.get i).startTime = 0) ∧
  (∀ i j : Fin segs.length, j.val = i.val + 1 →
    (segs.get i).endTime = (segs.get j).startTime) ∧
  (∀ i : Fin segs.length, i.val = segs.length - 1 → (segs.get i).endTime = D) ∧
  (∀ i : Fin segs.length, (segs.get i).startTime < (segs.get i).endTime) ∧
  (∀ i j : Fin segs.length, i.val < j.val →
    (segs.get i).endTime ≤ (segs.get j).startTime)

/-- Closed form of the merged segment list: segment i of the merged list
keeps start i*s, and only the (new) last segment has its end replaced by
the full duration. -/
def segOfMerged (s D n : ℕ) (i : ℕ) : RawSegment :=
  if i = n - 2 then ⟨i * s, D⟩ else segOf s D i

/-- A quiz_generation_progress row as written by the pipeline (the json
metadata blobs of the writes are omitted; they carry no keys or stages). -/
structure ProgressWrite where
  course_id : String
  session_id : String
  stage : String
  stage_progress : ℚ
  overall_progress : ℚ
  current_step : String
deriving DecidableEq, Repr

/-- The conflict key course_id,session_id named by every onConflict clause
in analyze-video-smart.ts (lines 235, 292, 327, 369, 475). -/
def progressKey (r : ProgressWrite) : String × String :=
  (r.course_id, r.session_id)

/-- Relational upsert keyed by an arbitrary key function: replace the rows
holding the key when present, append the row otherwise. This is the
semantics of supabase .upsert(..., onConflict). -/
def upsertBy {α κ : Type} [DecidableEq κ] (key : α → κ) (t : List α) (r : α) :
    List α :=
  if t.any (fun x => decide (key x = key r)) then
    t.map (fun x => if key x = key r then r else x)
  else t ++ [r]

/-- Relational insert: supabase .insert appends a row unconditionally, as
used for progress rows by the edge function (part_002 lines 171-185 and
314-328). -/
def insertProgressRow (t : List ProgressWrite) (r : ProgressWrite) :
    List ProgressWrite :=
  t ++ [r]

/-- At most one row per key: all keys in the table are pairwise distinct. -/
def keyUnique {α κ : Type} (key : α → κ) (t : List α) : Prop :=
  List.Pairwise (fun a b => key a ≠ key b) t

/-- Number of rows of the table holding the given key. -/
def countKey {α κ : Type} [DecidableEq κ] (key : α → κ) (t : List α) (k : κ) :
    ℕ :=
  (t.filter (fun x => decide (key x = k))).length

/-- First row of the table holding the given key. -/
def lookupBy {α κ : Type} [DecidableEq κ] (key : α → κ) (t : List α) (k : κ) :
    Option α :=
  t.find? (fun x => decide (key x = k))

/-- The progress row inserted (not upserted) by the edge function on the
segmented path (part_002 lines 312-329). -/
def segmentedProgressRow (cid sid : String) : ProgressWrite :=
  ⟨cid, sid, stPlanning, 0, 0, stepStartSegmented⟩

/-- The progress row inserted (not upserted) by the edge function on the
single-segment path (part_002 lines 169-186). -/
def singleSegmentProgressRow (cid sid : String) : ProgressWrite :=
  ⟨cid, sid, stPlanning, 0, 0, stepStartSingle⟩

/-- Outcome of the fetch to init-segmented-processing as observed by the
analyze handler (analyze-video-smart.ts lines 252-343): a parsed OK
response, a non-OK HTTP response, the AbortError raised when the
30-second timer fires, or any other rejection. -/
inductive InitOutcome where
  | ok (segmented : Bool) (totalSegments : ℕ)
  | httpError (errorText : String)
  | abortError
  | otherError (msg : String)

/-- The response fields of the analyze handler relevant to the claims
(message/details/data payloads are omitted). A field is none when the
corresponding JSON reply omits it. -/
structure HandlerResponse where
  status : ℕ
  success : Bool
  cached : Option Bool
  segmented : Option Bool
  background_processing : Option Bool
  course_id : Option String
deriving DecidableEq, Repr

/-- What the analyze handler does from the progress-tracking upsert onward
(analyze-video-smart.ts lines 216-487): the progress rows it upserts in
order, the HTTP response, and how many times it issued the
initialization fetch. -/
structure InitPhaseResult where
  progressWrites : List ProgressWrite
  response : HandlerResponse
  initCalls : ℕ

/-- The 30000 ms timer armed around the initialization fetch
(analyze-video-smart.ts lines 246-248). -/
def initTimeoutMs : ℕ := 30000

/-- Shallow embedding of analyze-video-smart.ts lines 216-487, from the
initialization progress upsert to the response. The effectful fetch is
replaced by its outcome; bodyHadCourseId records whether req.body carried
a course_id, which gates the failure upsert of the outer catch
(lines 454-480). Exactly one initialization fetch is issued on every
path. -/
def initPhase (cid sid : String) (bodyHadCourseId : Bool)
    (outcome : InitOutcome) : InitPhaseResult :=
  let w0 : ProgressWrite := ⟨cid, sid, stInitialization, 0, 0, stepAnalyzing⟩
  match outcome with
  | .ok true total =>
    ⟨[w0, ⟨cid, sid, stPlanning, 0.1, 0.1, stepSegmentOf ++ toString total⟩],
      ⟨200, true, none, some true, none, some cid⟩, 1⟩
  | .ok false _ =>
    ⟨[w0], ⟨200, true, some false, some false, none, some cid⟩, 1⟩
  | .httpError _ =>
    ⟨[w0, ⟨cid, sid, stFailed, 0, 0.05, stepInitFailed⟩],
      ⟨500, false, none, none, none, none⟩, 1⟩
  | .abortError =>
    ⟨[w0, ⟨cid, sid, stInitialization, 0.5, 0.1, stepBackground⟩],
      ⟨200, true, none, none, some true, some cid⟩, 1⟩
  | .otherError _ =>
    ⟨if bodyHadCourseId then
        [w0, ⟨cid, sid, stFailed, 0, 0.05, stepSystemError⟩]
      else [w0],
      ⟨500, false, none, none, none, none⟩, 1⟩

/-- Apply the progress writes of the analyze handler to a table; every one
of them is an upsert with onConflict course_id,session_id. -/
def applyAnalyzeWrites (t : List ProgressWrite) (ws : List ProgressWrite) :
    List ProgressWrite :=
  ws.foldl (upsertBy progressKey) t

/-- A stored course row (fields used by the cache lookup of
analyze-video-smart.ts lines 99-142). -/
structure Course where
  id : String
  youtube_url : String
  created_at : ℕ
  published : Bool
deriving DecidableEq, Repr

/-- A stored question row (the cache check only filters on course_id). -/
structure QuestionRow where
  id : String
  course_id : String
deriving DecidableEq, Repr

/-- The relational state read by the cache lookup. -/
structure Db where
  courses : List Course
  questions : List QuestionRow

/-- Insertion step for ordering by created_at descending. -/
def insertByCreatedDesc (c : Course) : List Course → List Course
  | [] => [c]
  | x :: xs =>
    if x.created_at ≤ c.created_at then c :: x :: xs
    else x :: insertByCreatedDesc c xs

/-- Order courses by created_at descending, the order clause of the cache
query (analyze-video-smart.ts line 109). -/
def orderByCreatedDesc : List Course → List Course
  | [] => []
  | x :: xs => insertByCreatedDesc x (orderByCreatedDesc xs)

/-- The cache query (analyze-video-smart.ts lines 105-109): the courses
whose youtube_url equals the sanitized URL, newest first. -/
def coursesWithUrl (db : Db) (url : String) : List Course :=
  orderByCreatedDesc (db.courses.filter (fun c => decide (c.youtube_url = url)))

/-- The per-course question probe (analyze-video-smart.ts lines 114-120):
select one question with the course id and test for non-emptiness. -/
def hasQuestions (db : Db) (cid : String) : Bool :=
  db.questions.any (fun q => decide (q.course_id = cid))

/-- The cache loop (analyze-video-smart.ts lines 113-139): the first course
of the ordered list that has at least one question. -/
def findCachedCourse (db : Db) : List Course → Option Course
  | [] => none
  | c :: rest =>
    if hasQuestions db c.id then some c else findCachedCourse db rest

/-- Result of the cache-then-create prefix of the analyze handler: the
early cached response when one is returned, and the courses table after
the phase (a new course row is appended only when no course_id was given
and no cached course was found). -/
structure CachePhaseResult where
  response : Option HandlerResponse
  courses : List Course

/-- Shallow embedding of analyze-video-smart.ts lines 99-214: the cache
lookup runs only when useCache is set and no course_id was supplied; a
hit responds 200 with cached true and segmented false and creates
nothing; otherwise a missing course_id leads to inserting the new course
row (whose metadata-derived fields are abstracted as newCourse). -/
def cacheAndCreate (useCache : Bool) (cidOpt : Option String) (db : Db)
    (youtubeUrl : String) (newCourse : Course) : CachePhaseResult :=
  let cacheHit : Option Course :=
    if useCache && cidOpt.isNone then
      findCachedCourse db (coursesWithUrl db (sanitizeYouTubeUrl youtubeUrl))
    else none
  match cacheHit with
  | some c =>
    ⟨some ⟨200, true, some true, some false, none, some c.id⟩, db.courses⟩
  | none =>
    match cidOpt with
    | none => ⟨none, db.courses ++ [newCourse]⟩
    | some _ => ⟨none, db.courses⟩

/-- A user_course_ratings row (rating.ts lines 100-108). -/
structure RatingRow where
  user_id : String
  course_id : String
  rating : ℚ
  rating_context : String
  time_spent_minutes : ℚ
  questions_answered : ℚ
  completion_percentage : ℚ
deriving DecidableEq, Repr

/-- The conflict key user_id,course_id of the rating upsert
(rating.ts line 113). -/
def ratingKey (r : RatingRow) : String × String :=
  (r.user_id, r.course_id)

/-- The engagement payload of a rating request (rating.ts lines 10-14). -/
structure EngagementData where
  timeSpentMinutes : ℚ
  questionsAnswered : ℚ
  completionPercentage : ℚ

/-- The rating validation (rating.ts line 53):
!rating || rating < 1 || rating > 5 || !Number.isInteger(rating), with a
missing rating field being falsy. -/
def ratingRejected : Option ℚ → Bool
  | none => true
  | some r =>
    decide (r = 0) || decide (r < 1) || decide (5 < r) || !r.isInt

/-- Shallow embedding of the POST branch of rating.ts (lines 49-164):
validation first (400), then authentication (401), then course existence
(404), then the upsert keyed user_id,course_id (200). Returns the table
after the request and the HTTP status. -/
def ratingPost (t : List RatingRow) (userId : Option String)
    (courseExists : Bool) (courseId : String) (rating : Option ℚ)
    (context : String) (eng : Option EngagementData) : List RatingRow × ℕ :=
  if ratingRejected rating then (t, 400)
  else
    match userId with
    | none => (t, 401)
    | some uid =>
      if courseExists then
        match rating with
        | some r =>
          (upsertBy ratingKey t
            ⟨uid, courseId, r, context,
              (eng.map EngagementData.timeSpentMinutes).getD 0,
              (eng.map EngagementData.questionsAnswered).getD 0,
              (eng.map EngagementData.completionPercentage).getD 0⟩, 200)
        | none => (t, 400)
      else (t, 404)

/-- Concrete strings used by counterexamples and witnesses. -/
def cxCid : String := "course-1"

def cxSid : String := "session-1"

def cxUid : String := "user-1"

def cxCtx : String := "manual"

def cxQid : String := "question-1"

def durP0D : String := "P0D"

def cxUrl2 : String := "https://www.youtube.com/watch?si=x&v=abc"

def cxUrlShort : String := "https://youtu.be/xyz"

def cxWatchUrl : String := "https://www.youtube.com/watch?v=xyz"

/-- ceilDiv is the least k with D ≤ k * s. -/
theorem ceilDiv_le_iff {s : ℕ} (hs : 0 < s) (D k : ℕ) :
    ceilDiv D s ≤ k ↔ D ≤ k * s := by
  unfold ceilDiv
  rw [Nat.div_le_iff_le_mul_add_pred hs, Nat.mul_comm]
  generalize k * s = m
  omega

/-- Strict lower bounds below ceilDiv give strict multiples below D. -/
theorem lt_ceilDiv_iff {s : ℕ} (hs : 0 < s) (D k : ℕ) :
    k < ceilDiv D s ↔ k * s < D := by
  rw [← Nat.not_le, ← Nat.not_le, ceilDiv_le_iff hs]

theorem le_ceilDiv_mul {s : ℕ} (hs : 0 < s) (D : ℕ) : D ≤ ceilDiv D s * s :=
  (ceilDiv_le_iff hs D (ceilDiv D s)).mp le_rfl

theorem ceilDiv_pos {s : ℕ} (hs : 0 < s) {D : ℕ} (hD : 0 < D) :
    0 < ceilDiv D s := by
  rw [lt_ceilDiv_iff hs, Nat.zero_mul]
  exact hD

theorem two_le_ceilDiv {s d : ℕ} (hs : 0 < s) (h : s < d) : 2 ≤ ceilDiv d s := by
  have := (lt_ceilDiv_iff hs d 1).mpr (by omega)
  omega

theorem rawSegments_length (D s : ℕ) : (rawSegments D s).length = ceilDiv D s := by
  simp [rawSegments]

theorem rawSegments_getLast (D s : ℕ) (h : 0 < ceilDiv D s) :
    (rawSegments D s).getLast? = some (segOf s D (ceilDiv D s - 1)) := by
  obtain ⟨m, hm⟩ : ∃ m, ceilDiv D s = m + 1 := ⟨ceilDiv D s - 1, by omega⟩
  rw [rawSegments, hm, List.range_succ, List.map_append]
  simp

theorem setLastEnd_length (D : ℕ) (l : List RawSegment) :
    (setLastEnd D l).length = l.length := by
  induction l with
  | nil => rfl
  | cons a tail ih =>
    cases tail with
    | nil => rfl
    | cons b rest => simpa [setLastEnd] using ih

theorem setLastEnd_eq_append (D : ℕ) (l : List RawSegment) (h : l ≠ []) :
    setLastEnd D l = l.dropLast ++ [⟨(l.getLast h).startTime, D⟩] := by
  induction l with
  | nil => exact absurd rfl h
  | cons a tail ih =>
    cases tail with
    | nil => simp [setLastEnd]
    | cons b rest =>
      have := ih (by simp)
      simp only [setLastEnd, this, List.dropLast_cons₂, List.getLast_cons_cons,
        List.cons_append]

theorem mergeShortLast_of_le_one (D : ℕ) (l : List RawSegment)
    (h : l.length ≤ 1) : mergeShortLast D l = l := by
  unfold mergeShortLast
  rw [if_neg (by omega)]

theorem mergeShortLast_of_long_last (D : ℕ) (l : List RawSegment)
    (a : RawSegment) (hlast : l.getLast? = some a)
    (h20 : 20 ≤ a.endTime - a.startTime) : mergeShortLast D l = l := by
  unfold mergeShortLast
  split
  · rw [hlast]
    exact if_neg (by omega)
  · rfl

theorem mergeShortLast_of_merge (D : ℕ) (l : List RawSegment)
    (a : RawSegment) (hlen : 1 < l.length) (hlast : l.getLast? = some a)
    (h20 : a.endTime - a.startTime < 20) :
    mergeShortLast D l = setLastEnd D l.dropLast := by
  unfold mergeShortLast
  rw [if_pos hlen, hlast]
  exact if_pos h20


/-- Partition property for any list given as a map over List.range, reduced
to pointwise facts about the generating function. -/
theorem partitionsTimeline_map_range (D m : ℕ) (f : ℕ → RawSegment)
    (hm : 0 < m)
    (h0 : (f 0).startTime = 0)
    (hchain : ∀ i, i + 1 < m → (f i).endTime = (f (i + 1)).startTime)
    (hlast : (f (m - 1)).endTime = D)
    (hlt : ∀ i, i < m → (f i).startTime < (f i).endTime)
    (hmono : ∀ i j, i < j → j < m → (f i).endTime ≤ (f j).startTime) :
    partitionsTimeline D ((List.range m).map f) := by
  have hlen : ((List.range m).map f).length = m := by simp
  have hget : ∀ i : Fin ((List.range m).map f).length,
      ((List.range m).map f).get i = f i.val := by
    intro i
    rw [List.get_eq_getElem, List.getElem_map, List.getElem_range]
  refine ⟨?_, ?_, ?_, ?_, ?_, ?_⟩
  · exact List.length_pos.mp (by omega)
  · intro i h0i
    rw [hget i, h0i, h0]
  · intro i j hij
    have hj : j.val < m := lt_of_lt_of_eq j.isLt hlen
    rw [hget i, hget j, hij]
    exact hchain i.val (by omega)
  · intro i hi
    rw [hget i, hi, hlen, hlast]
  · intro i
    have him : i.val < m := lt_of_lt_of_eq i.isLt hlen
    rw [hget i]
    exact hlt i.val him
  · intro i j hij
    have hj : j.val < m := lt_of_lt_of_eq j.isLt hlen
    rw [hget i, hget j]
    exact hmono i.val j.val hij hj

/-- The raw split partitions the timeline. -/
theorem rawSegments_partition (D s : ℕ) (hs : 0 < s) (hD : 0 < D) :
    partitionsTimeline D (rawSegments D s) := by
  have hn : 0 < ceilDiv D s := ceilDiv_pos hs hD
  apply partitionsTimeline_map_range D (ceilDiv D s) (segOf s D) hn
  · simp [segOf]
  · intro i hi
    have : (i + 1) * s < D := (lt_ceilDiv_iff hs D (i + 1)).mp (by omega)
    simp [segOf, Nat.min_eq_left (Nat.le_of_lt this)]
  · have h1 : (ceilDiv D s - 1) + 1 = ceilDiv D s := by omega
    have h2 : D ≤ ceilDiv D s * s := le_ceilDiv_mul hs D
    simp [segOf, h1, Nat.min_eq_right h2]
  · intro i hi
    have h1 : i * s < D := (lt_ceilDiv_iff hs D i).mp hi
    have h2 : i * s < (i + 1) * s := (Nat.mul_lt_mul_right hs).mpr (by omega)
    exact lt_min h2 h1
  · intro i j hij hj
    calc (segOf s D i).endTime ≤ (i + 1) * s := Nat.min_le_left ..
      _ ≤ j * s := Nat.mul_le_mul_right s (by omega)
      _ = (segOf s D j).startTime := rfl

/-- Closed form of the merged list: when the merge fires, the result is the
first ceilDiv D s - 1 raw segments with the end of the last one replaced by
the total duration. -/
theorem setLastEnd_rawSegments (D s : ℕ) (h2 : 2 ≤ ceilDiv D s) :
    setLastEnd D (rawSegments D s).dropLast
      = (List.range (ceilDiv D s - 1)).map (segOfMerged s D (ceilDiv D s)) := by
  obtain ⟨m, hm⟩ : ∃ m, ceilDiv D s = m + 2 := ⟨ceilDiv D s - 2, by omega⟩
  have hdrop : (rawSegments D s).dropLast
      = (List.range (m + 1)).map (segOf s D) := by
    rw [rawSegments, hm, List.range_succ, List.map_append]
    simp
  have hne : (List.range (m + 1)).map (segOf s D) ≠ [] := by simp
  have hlastsome : ((List.range (m + 1)).map (segOf s D)).getLast? = some (segOf s D m) := by
    rw [List.range_succ, List.map_append]
    simp
  have hlastval : ((List.range (m + 1)).map (segOf s D)).getLast hne = segOf s D m := by
    rw [List.getLast?_eq_getLast _ hne] at hlastsome
    exact Option.some.inj hlastsome
  rw [hdrop, setLastEnd_eq_append D _ hne, hlastval]
  have hdrop2 : ((List.range (m + 1)).map (segOf s D)).dropLast
      = (List.range m).map (segOf s D) := by
    rw [List.range_succ, List.map_append]
    simp
  have hrhs : List.range (ceilDiv D s - 1) = List.range m ++ [m] := by
    rw [hm, show m + 2 - 1 = m + 1 by omega, List.range_succ]
  rw [hdrop2, hrhs, List.map_append]
  congr 1
  · apply List.map_congr_left
    intro a ha
    have haa : a < m := List.mem_range.mp ha
    have hne2 : a ≠ ceilDiv D s - 2 := by omega
    simp [segOfMerged, hne2]
  · have hme : m = ceilDiv D s - 2 := by omega
    simp [segOfMerged, segOf, ← hme]

/-- The merged list partitions the timeline. -/
theorem mergedSegments_partition (D s : ℕ) (hs : 0 < s)
    (h2 : 2 ≤ ceilDiv D s) :
    partitionsTimeline D
      ((List.range (ceilDiv D s - 1)).map (segOfMerged s D (ceilDiv D s))) := by
  have hstart : ∀ i, (segOfMerged s D (ceilDiv D s) i).startTime = i * s := by
    intro i
    unfold segOfMerged segOf
    split <;> rfl
  apply partitionsTimeline_map_range D (ceilDiv D s - 1)
    (segOfMerged s D (ceilDiv D s)) (by omega)
  · rw [hstart, Nat.zero_mul]
  · intro i hi
    have hne : i ≠ ceilDiv D s - 2 := by omega
    have hlt : (i + 1) * s < D := (lt_ceilDiv_iff hs D (i + 1)).mp (by omega)
    have hend : (segOfMerged s D (ceilDiv D s) i).endTime = (i + 1) * s := by
      simp [segOfMerged, hne, segOf, Nat.min_eq_left (Nat.le_of_lt hlt)]
    rw [hend, hstart]
  · have hpos : ceilDiv D s - 1 - 1 = ceilDiv D s - 2 := by omega
    simp [segOfMerged, hpos]
  · intro i hi
    rw [hstart]
    by_cases he : i = ceilDiv D s - 2
    · have hend : (segOfMerged s D (ceilDiv D s) i).endTime = D := by
        simp [segOfMerged, he]
      rw [hend]
      exact (lt_ceilDiv_iff hs D i).mp (by omega)
    · have hend : (segOfMerged s D (ceilDiv D s) i).endTime = min ((i + 1) * s) D := by
        simp [segOfMerged, he, segOf]
      rw [hend]
      exact lt_min ((Nat.mul_lt_mul_right hs).mpr (by omega))
        ((lt_ceilDiv_iff hs D i).mp (by omega))
  · intro i j hij hj
    have hne : i ≠ ceilDiv D s - 2 := by omega
    have hend : (segOfMerged s D (ceilDiv D s) i).endTime = min ((i + 1) * s) D := by
      simp [segOfMerged, hne, segOf]
    rw [hend, hstart j]
    calc min ((i + 1) * s) D ≤ (i + 1) * s := Nat.min_le_left ..
      _ ≤ j * s := Nat.mul_le_mul_right s (by omega)

theorem totalDuration_pos (vd : Option ℕ) : 0 < totalDuration vd := by
  cases vd with
  | none => decide
  | some n =>
    simp only [totalDuration]
    split <;> omega

/-- Accumulating fold equals initial value plus mapped sum. -/
theorem foldl_add_eq_sum {α : Type} (f : α → ℕ) (l : List α) (a : ℕ) :
    l.foldl (fun acc x => acc + f x) a = a + (l.map f).sum := by
  induction l generalizing a with
  | nil => simp
  | cons x xs ih =>
    simp only [List.foldl_cons, List.map_cons, List.sum_cons, ih]
    omega

/-- C1 (corrected): the segmentation decision. A determined nonzero duration
segments the video exactly when it exceeds the requested segment duration
(default 300); an undetermined duration and a duration determined as 0 are
both replaced by 1800 and force segmentation; whenever segmentation
happens the raw split has ceil(totalDuration / segment_duration) segments,
and for a determined duration above the segment duration that count is at
least two. -/
theorem C1_segmentationDecision (vd : Option ℕ) (sOpt : Option ℕ)
    (hs : 0 < reqSegmentDuration sOpt) :
    (sOpt = none → reqSegmentDuration sOpt = 300) ∧
    (∀ d, vd = some d → 0 < d →
      ((shouldSegment vd (reqSegmentDuration sOpt) = true)
        ↔ reqSegmentDuration sOpt < d)) ∧
    ((vd = none ∨ vd = some 0) →
      totalDuration vd = 1800 ∧
        shouldSegment vd (reqSegmentDuration sOpt) = true) ∧
    (shouldSegment vd (reqSegmentDuration sOpt) = true →
      (rawSegments (totalDuration vd) (reqSegmentDuration sOpt)).length
        = ceilDiv (totalDuration vd) (reqSegmentDuration sOpt)) ∧
    (∀ d, vd = some d → reqSegmentDuration sOpt < d →
      2 ≤ (rawSegments d (reqSegmentDuration sOpt)).length) := by
  refine ⟨fun h => by rw [h]; rfl, ?_, ?_, fun _ => rawSegments_length .., ?_⟩
  · intro d hd hdpos
    subst hd
    simp only [shouldSegment]
    rw [if_pos (show d ≠ 0 by omega)]
    exact decide_eq_true_iff ..
  · rintro (h | h) <;> subst h <;> exact ⟨rfl, rfl⟩
  · intro d hd hlt
    rw [rawSegments_length]
    exact two_le_ceilDiv hs hlt

/-- C1 counterexample: the YouTube API duration string P0D (a live stream)
parses to the determined duration 0, which does not exceed the default
segment duration 300, yet the code segments the video, so segmentation
does not happen exactly when the known duration exceeds the segment
duration. -/
theorem C1_counterexample :
    parseISO8601Duration durP0D = 0 ∧
    ¬ ((shouldSegment (some (parseISO8601Duration durP0D)) 300 = true)
        ↔ 300 < parseISO8601Duration durP0D) := by
  decide

theorem C1_segmentationDecision_witness :
    0 < reqSegmentDuration none ∧
    ((none = (none : Option ℕ) → reqSegmentDuration none = 300) ∧
    (∀ d, (some 700 : Option ℕ) = some d → 0 < d →
      ((shouldSegment (some 700) (reqSegmentDuration none) = true)
        ↔ reqSegmentDuration none < d)) ∧
    (((some 700 : Option ℕ) = none ∨ (some 700 : Option ℕ) = some 0) →
      totalDuration (some 700) = 1800 ∧
        shouldSegment (some 700) (reqSegmentDuration none) = true) ∧
    (shouldSegment (some 700) (reqSegmentDuration none) = true →
      (rawSegments (totalDuration (some 700)) (reqSegmentDuration none)).length
        = ceilDiv (totalDuration (some 700)) (reqSegmentDuration none)) ∧
    (∀ d, (some 700 : Option ℕ) = some d → reqSegmentDuration none < d →
      2 ≤ (rawSegments d (reqSegmentDuration none)).length)) :=
  ⟨by decide, C1_segmentationDecision (some 700) none (by decide)⟩

/-- C2 (confirmed): for every request the stored segments partition the
video timeline from 0 to the total duration, with no overlaps, in the
single-segment case, the multi-segment case and the merged case alike. -/
theorem C2_segmentsPartitionTimeline (vd : Option ℕ) (s : ℕ) (hs : 0 < s) :
    partitionsTimeline (totalDuration vd) (finalSegments vd s) := by
  have hD : 0 < totalDuration vd := totalDuration_pos vd
  unfold finalSegments
  by_cases hseg : shouldSegment vd s
  · rw [if_pos hseg]
    have hn : 0 < ceilDiv (totalDuration vd) s := ceilDiv_pos hs hD
    by_cases hn1 : ceilDiv (totalDuration vd) s = 1
    · have hlen : (rawSegments (totalDuration vd) s).length ≤ 1 := by
        rw [rawSegments_length, hn1]
      rw [mergeShortLast_of_le_one _ _ hlen]
      exact rawSegments_partition _ _ hs hD
    · have h2 : 2 ≤ ceilDiv (totalDuration vd) s := by omega
      have hlast := rawSegments_getLast (totalDuration vd) s hn
      by_cases hmerge :
          (segOf s (totalDuration vd) (ceilDiv (totalDuration vd) s - 1)).endTime
            - (segOf s (totalDuration vd) (ceilDiv (totalDuration vd) s - 1)).startTime < 20
      · rw [mergeShortLast_of_merge _ _ _ (by rw [rawSegments_length]; omega) hlast hmerge,
          setLastEnd_rawSegments _ _ h2]
        exact mergedSegments_partition _ _ hs h2
      · rw [mergeShortLast_of_long_last _ _ _ hlast (by omega)]
        exact rawSegments_partition _ _ hs hD
  · rw [if_neg hseg]
    show partitionsTimeline (totalDuration vd)
      ((List.range 1).map (fun _ => (⟨0, totalDuration vd⟩ : RawSegment)))
    apply partitionsTimeline_map_range _ 1 _ (by omega) rfl
    · intro i hi
      omega
    · rfl
    · intro i hi
      exact hD
    · intro i j hij hj
      omega

theorem C2_segmentsPartitionTimeline_witness :
    0 < 300 ∧ partitionsTimeline (totalDuration (some 1234)) (finalSegments (some 1234) 300) :=
  ⟨by decide, C2_segmentsPartitionTimeline (some 1234) 300 (by decide)⟩

/-- C3 (confirmed): the merge heuristic fires exactly when the split has at
least two raw segments and the last one is shorter than 20 seconds; it then
removes the last raw segment and extends the previous one to the total
duration, and otherwise leaves the raw segments unchanged, so the final
count is ceil(duration / segment_duration) or that value minus one. -/
theorem C3_shortLastSegmentMerge (D s : ℕ) (hs : 0 < s) :
    ((rawSegments D s).length ≤ 1 →
      mergeShortLast D (rawSegments D s) = rawSegments D s) ∧
    (∀ a, (rawSegments D s).getLast? = some a →
      20 ≤ a.endTime - a.startTime →
      mergeShortLast D (rawSegments D s) = rawSegments D s) ∧
    (∀ a prev, 2 ≤ (rawSegments D s).length →
      (rawSegments D s).getLast? = some a →
      a.endTime - a.startTime < 20 →
      (rawSegments D s).dropLast.getLast? = some prev →
      mergeShortLast D (rawSegments D s)
        = (rawSegments D s).dropLast.dropLast ++ [⟨prev.startTime, D⟩]) ∧
    ((mergeShortLast D (rawSegments D s)).length = ceilDiv D s ∨
      (2 ≤ ceilDiv D s ∧
        (mergeShortLast D (rawSegments D s)).length = ceilDiv D s - 1)) := by
  refine ⟨mergeShortLast_of_le_one D _, ?_, ?_, ?_⟩
  · intro a hlast h20
    exact mergeShortLast_of_long_last D _ a hlast h20
  · intro a prev hlen2 hlast hdur hprev
    have hdne : (rawSegments D s).dropLast ≠ [] := by
      have hld := List.length_dropLast (rawSegments D s)
      intro hcontra
      rw [hcontra] at hld
      simp at hld
      omega
    rw [mergeShortLast_of_merge _ _ _ (by omega) hlast hdur,
      setLastEnd_eq_append _ _ hdne]
    have hval := List.getLast?_eq_getLast _ hdne
    rw [hval] at hprev
    rw [Option.some.inj hprev]
  · by_cases hl : (rawSegments D s).length ≤ 1
    · left
      rw [mergeShortLast_of_le_one _ _ hl, rawSegments_length]
    · have hn2 : 2 ≤ ceilDiv D s := by
        rw [rawSegments_length] at hl
        omega
      have hn0 : 0 < ceilDiv D s := by omega
      have hlast := rawSegments_getLast D s hn0
      by_cases hdur : (segOf s D (ceilDiv D s - 1)).endTime
          - (segOf s D (ceilDiv D s - 1)).startTime < 20
      · right
        refine ⟨hn2, ?_⟩
        rw [mergeShortLast_of_merge _ _ _ (by rw [rawSegments_length]; omega) hlast hdur,
          setLastEnd_length, List.length_dropLast, rawSegments_length]
      · left
        rw [mergeShortLast_of_long_last _ _ _ hlast (by omega), rawSegments_length]

theorem C3_shortLastSegmentMerge_witness :
    0 < 300 ∧
    (((rawSegments 610 300).length ≤ 1 →
      mergeShortLast 610 (rawSegments 610 300) = rawSegments 610 300) ∧
    (∀ a, (rawSegments 610 300).getLast? = some a →
      20 ≤ a.endTime - a.startTime →
      mergeShortLast 610 (rawSegments 610 300) = rawSegments 610 300) ∧
    (∀ a prev, 2 ≤ (rawSegments 610 300).length →
      (rawSegments 610 300).getLast? = some a →
      a.endTime - a.startTime < 20 →
      (rawSegments 610 300).dropLast.getLast? = some prev →
      mergeShortLast 610 (rawSegments 610 300)
        = (rawSegments 610 300).dropLast.dropLast ++ [⟨prev.startTime, 610⟩]) ∧
    ((mergeShortLast 610 (rawSegments 610 300)).length = ceilDiv 610 300 ∨
      (2 ≤ ceilDiv 610 300 ∧
        (mergeShortLast 610 (rawSegments 610 300)).length = ceilDiv 610 300 - 1))) :=
  ⟨by decide, C3_shortLastSegmentMerge 610 300 (by decide)⟩

/-- C4 (confirmed): each final segment is budgeted
min(ceil(length / 60), max_questions_per_segment) questions, the cap
defaults to 5, and the total expected count accumulated by the loop is
exactly the sum of the per-segment budgets. -/
theorem C4_questionBudget (vd : Option ℕ) (sOpt mOpt : Option ℕ) :
    (mOpt = none → reqMaxQuestions mOpt = 5) ∧
    (∀ seg ∈ finalSegments vd (reqSegmentDuration sOpt),
      expectedQuestions (reqMaxQuestions mOpt) seg
        = min (ceilDiv (seg.endTime - seg.startTime) 60) (reqMaxQuestions mOpt)) ∧
    (totalExpectedQuestions (reqMaxQuestions mOpt)
        (finalSegments vd (reqSegmentDuration sOpt))
      = ((finalSegments vd (reqSegmentDuration sOpt)).map
          (fun seg => min (ceilDiv (seg.endTime - seg.startTime) 60)
            (reqMaxQuestions mOpt))).sum) := by
  refine ⟨fun h => by rw [h]; rfl, fun seg _ => rfl, ?_⟩
  rw [totalExpectedQuestions, foldl_add_eq_sum, Nat.zero_add]
  congr 1

/-- Upserting preserves key uniqueness. -/
theorem keyUnique_upsertBy {α κ : Type} [DecidableEq κ] (key : α → κ)
    (t : List α) (r : α) (h : keyUnique key t) :
    keyUnique key (upsertBy key t r) := by
  unfold keyUnique at *
  unfold upsertBy
  by_cases hany : t.any (fun x => decide (key x = key r)) = true
  · rw [if_pos hany, List.pairwise_map]
    have hf : ∀ x : α, key (if key x = key r then r else x) = key x := by
      intro x
      by_cases hx : key x = key r
      · rw [if_pos hx, hx]
      · rw [if_neg hx]
    refine h.imp ?_
    intro a b hab
    rw [hf a, hf b]
    exact hab
  · rw [if_neg hany, List.pairwise_append]
    refine ⟨h, by simp, ?_⟩
    intro a ha b hb
    simp only [List.mem_singleton] at hb
    subst hb
    intro hcontra
    apply hany
    rw [List.any_eq_true]
    exact ⟨a, ha, by simp [hcontra]⟩

/-- A key-unique table holds at most one row per key. -/
theorem countKey_le_one {α κ : Type} [DecidableEq κ] (key : α → κ) :
    ∀ t : List α, keyUnique key t → ∀ k, countKey key t k ≤ 1 := by
  intro t
  induction t with
  | nil =>
    intro h k
    simp [countKey]
  | cons a t ih =>
    intro h k
    unfold keyUnique at h
    have hp := List.pairwise_cons.mp h
    have h2 := ih hp.2 k
    unfold countKey at *
    rw [List.filter_cons]
    by_cases ha : key a = k
    · have hz : (t.filter (fun x => decide (key x = k))).length = 0 := by
        rw [List.length_eq_zero, List.filter_eq_nil_iff]
        intro b hb
        simp only [decide_eq_true_eq]
        intro hbk
        exact hp.1 b hb (by rw [ha, hbk])
      simp [ha, hz]
    · rw [if_neg (by simpa using ha)]
      exact h2

/-- Folding upserts over a key-unique table keeps it key-unique. -/
theorem keyUnique_foldl {α κ : Type} [DecidableEq κ] (key : α → κ) :
    ∀ ws t : List α, keyUnique key t →
      keyUnique key (ws.foldl (upsertBy key) t) := by
  intro ws
  induction ws with
  | nil =>
    intro t h
    exact h
  | cons w ws ih =>
    intro t h
    exact ih _ (keyUnique_upsertBy key t w h)

/-- After replacing the rows holding the key of r, the first row with that
key is r. -/
theorem find?_map_replace {α κ : Type} [DecidableEq κ] (key : α → κ) (r : α) :
    ∀ t : List α, (∃ x ∈ t, key x = key r) →
      (t.map (fun x => if key x = key r then r else x)).find?
        (fun x => decide (key x = key r)) = some r := by
  intro t
  induction t with
  | nil =>
    rintro ⟨x, hx, _⟩
    cases hx
  | cons a t ih =>
    rintro ⟨x, hx, hxk⟩
    rw [List.map_cons]
    by_cases ha : key a = key r
    · rw [if_pos ha, List.find?_cons_of_pos _ (by simp)]
    · rw [if_neg ha, List.find?_cons_of_neg _ (by simp [ha])]
      apply ih
      rcases List.mem_cons.mp hx with he | hm
      · exact absurd (he ▸ hxk) ha
      · exact ⟨x, hm, hxk⟩

/-- Appending a fresh-keyed row makes it the first row with its key. -/
theorem find?_append_new {α κ : Type} [DecidableEq κ] (key : α → κ) (r : α) :
    ∀ t : List α, (∀ x ∈ t, ¬ key x = key r) →
      (t ++ [r]).find? (fun x => decide (key x = key r)) = some r := by
  intro t
  induction t with
  | nil =>
    intro hnone
    rw [List.nil_append, List.find?_cons_of_pos _ (by simp)]
  | cons a t ih =>
    intro hnone
    rw [List.cons_append,
      List.find?_cons_of_neg _ (by simp [hnone a (by simp)])]
    exact ih (fun x hx => hnone x (by simp [hx]))

/-- Upserting r makes r the row found under its key. -/
theorem lookupBy_upsertBy {α κ : Type} [DecidableEq κ] (key : α → κ)
    (t : List α) (r : α) :
    lookupBy key (upsertBy key t r) (key r) = some r := by
  unfold lookupBy upsertBy
  by_cases hany : t.any (fun x => decide (key x = key r)) = true
  · rw [if_pos hany]
    apply find?_map_replace
    rw [List.any_eq_true] at hany
    obtain ⟨x, hx, hxk⟩ := hany
    exact ⟨x, hx, of_decide_eq_true hxk⟩
  · rw [if_neg hany]
    apply find?_append_new
    intro x hx hk
    apply hany
    rw [List.any_eq_true]
    exact ⟨x, hx, decide_eq_true hk⟩

/-- C5 (confirmed): a timed-out initialization request yields HTTP 200 with
success and background_processing set, the last progress upsert keeps
stage initialization and no write of that path uses stage failed; a
non-OK initialization response yields a stage-failed upsert and
HTTP 500. -/
theorem C5_timeoutIsNotFailure (cid sid e : String) (b : Bool) :
    initTimeoutMs = 30000 ∧
    (initPhase cid sid b .abortError).response.status = 200 ∧
    (initPhase cid sid b .abortError).response.success = true ∧
    (initPhase cid sid b .abortError).response.background_processing = some true ∧
    Option.map ProgressWrite.stage
        ((initPhase cid sid b .abortError).progressWrites.getLast?)
      = some stInitialization ∧
    (∀ w ∈ (initPhase cid sid b .abortError).progressWrites,
      w.stage ≠ stFailed) ∧
    Option.map ProgressWrite.stage
        ((initPhase cid sid b (.httpError e)).progressWrites.getLast?)
      = some stFailed ∧
    (initPhase cid sid b (.httpError e)).response.status = 500 := by
  refine ⟨rfl, rfl, rfl, rfl, rfl, ?_, rfl, rfl⟩
  intro w hw
  have hw2 : w = (⟨cid, sid, stInitialization, 0, 0, stepAnalyzing⟩ : ProgressWrite) ∨
      w = (⟨cid, sid, stInitialization, 0.5, 0.1, stepBackground⟩ : ProgressWrite) := by
    simpa [initPhase] using hw
  rcases hw2 with h | h <;> subst h <;>
    exact (by decide : stInitialization ≠ stFailed)

/-- C6 counterexample: when the hand-off call times out the handler issues
no second initialization call, so the orchestration does not retry. -/
theorem C6_counterexample :
    ¬ (2 ≤ (initPhase cxCid cxSid true .abortError).initCalls) := by decide

/-- C6 (corrected): on a timeout of the hand-off call the orchestration does
not retry; the single call stands, the handler answers HTTP 200 with
background_processing set and leaves the edge function running in the
background. -/
theorem C6_noRetryOnTimeout (cid sid : String) (b : Bool) :
    (initPhase cid sid b .abortError).initCalls = 1 ∧
    (initPhase cid sid b .abortError).response.status = 200 ∧
    (initPhase cid sid b .abortError).response.success = true ∧
    (initPhase cid sid b .abortError).response.background_processing = some true :=
  ⟨rfl, rfl, rfl, rfl⟩

/-- C7 (corrected): every progress write of the analyze handler is an upsert
keyed on course_id and session_id, so running any handler path keeps the
progress table at no more than one row per course and session. -/
theorem C7_analyzeWritesAreUpserts (t : List ProgressWrite) (cid sid : String)
    (b : Bool) (o : InitOutcome) (h : keyUnique progressKey t) :
    keyUnique progressKey
      (applyAnalyzeWrites t (initPhase cid sid b o).progressWrites) ∧
    ∀ k, countKey progressKey
      (applyAnalyzeWrites t (initPhase cid sid b o).progressWrites) k ≤ 1 := by
  have hu : keyUnique progressKey
      (applyAnalyzeWrites t (initPhase cid sid b o).progressWrites) :=
    keyUnique_foldl progressKey (initPhase cid sid b o).progressWrites t h
  exact ⟨hu, countKey_le_one progressKey _ hu⟩

/-- C7 counterexample: the edge function writes its progress row with a
plain insert, so repeating it for the same course and session leaves two
rows under the key, refuting that every pipeline progress write is an
upsert that keeps at most one row. -/
theorem C7_counterexample :
    countKey progressKey
        (insertProgressRow
          (insertProgressRow [] (segmentedProgressRow cxCid cxSid))
          (segmentedProgressRow cxCid cxSid)) (cxCid, cxSid) = 2 ∧
    ¬ (countKey progressKey
        (insertProgressRow
          (insertProgressRow [] (segmentedProgressRow cxCid cxSid))
          (segmentedProgressRow cxCid cxSid)) (cxCid, cxSid) ≤ 1) := by
  decide

theorem C7_analyzeWritesAreUpserts_witness :
    keyUnique progressKey ([] : List ProgressWrite) ∧
    (keyUnique progressKey
        (applyAnalyzeWrites [] (initPhase cxCid cxSid true .abortError).progressWrites) ∧
      ∀ k, countKey progressKey
        (applyAnalyzeWrites [] (initPhase cxCid cxSid true .abortError).progressWrites) k ≤ 1) :=
  ⟨List.Pairwise.nil,
    C7_analyzeWritesAreUpserts [] cxCid cxSid true .abortError List.Pairwise.nil⟩

theorem mem_insertByCreatedDesc (c x : Course) :
    ∀ l : List Course, x ∈ insertByCreatedDesc c l ↔ x = c ∨ x ∈ l := by
  intro l
  induction l with
  | nil => simp [insertByCreatedDesc]
  | cons y ys ih =>
    unfold insertByCreatedDesc
    split
    · simp
    · simp only [List.mem_cons, ih]
      tauto

theorem mem_orderByCreatedDesc (x : Course) :
    ∀ l : List Course, x ∈ orderByCreatedDesc l ↔ x ∈ l := by
  intro l
  induction l with
  | nil => simp [orderByCreatedDesc]
  | cons y ys ih =>
    simp only [orderByCreatedDesc, mem_insertByCreatedDesc, ih, List.mem_cons]

/-- If some course of the scanned list has questions, the cache loop
returns a course of the list that has questions. -/
theorem findCachedCourse_some (db : Db) :
    ∀ l : List Course, (∃ c ∈ l, hasQuestions db c.id = true) →
      ∃ c, findCachedCourse db l = some c ∧ c ∈ l ∧
        hasQuestions db c.id = true := by
  intro l
  induction l with
  | nil =>
    rintro ⟨c, hc, _⟩
    cases hc
  | cons a rest ih =>
    rintro ⟨c, hc, hq⟩
    by_cases ha : hasQuestions db a.id = true
    · exact ⟨a, by simp [findCachedCourse, ha], by simp, ha⟩
    · have hcr : c ∈ rest := by
        rcases List.mem_cons.mp hc with he | hm
        · exact absurd (he ▸ hq) ha
        · exact hm
      obtain ⟨c2, hfind, hmem, hq2⟩ := ih ⟨c, hcr, hq⟩
      exact ⟨c2, by simp [findCachedCourse, ha, hfind], by simp [hmem], hq2⟩

/-- C8 (confirmed): with useCache set and no course_id given, when a stored
course with the same sanitized URL has at least one question, the handler
replies 200 with that course id, cached true and segmented false, and the
courses table is left unchanged (no new course row). -/
theorem C8_cacheHitReusesCourse (db : Db) (url : String) (newC : Course)
    (h : ∃ c ∈ db.courses, c.youtube_url = sanitizeYouTubeUrl url ∧
      hasQuestions db c.id = true) :
    ∃ c, c ∈ db.courses ∧ c.youtube_url = sanitizeYouTubeUrl url ∧
      hasQuestions db c.id = true ∧
      (cacheAndCreate true none db url newC).response
        = some ⟨200, true, some true, some false, none, some c.id⟩ ∧
      (cacheAndCreate true none db url newC).courses = db.courses := by
  obtain ⟨c, hmem, hurl, hq⟩ := h
  have hex : ∃ x ∈ coursesWithUrl db (sanitizeYouTubeUrl url),
      hasQuestions db x.id = true := by
    refine ⟨c, ?_, hq⟩
    unfold coursesWithUrl
    rw [mem_orderByCreatedDesc, List.mem_filter]
    exact ⟨hmem, by simp [hurl]⟩
  obtain ⟨c2, hfind, hmem2, hq2⟩ := findCachedCourse_some db _ hex
  have hmem3 : c2 ∈ db.courses ∧ c2.youtube_url = sanitizeYouTubeUrl url := by
    unfold coursesWithUrl at hmem2
    rw [mem_orderByCreatedDesc, List.mem_filter] at hmem2
    exact ⟨hmem2.1, by simpa using hmem2.2⟩
  have hcc : cacheAndCreate true none db url newC
      = ⟨some ⟨200, true, some true, some false, none, some c2.id⟩, db.courses⟩ := by
    have hstep : cacheAndCreate true none db url newC
        = match findCachedCourse db (coursesWithUrl db (sanitizeYouTubeUrl url)) with
          | some c3 =>
            ⟨some ⟨200, true, some true, some false, none, some c3.id⟩, db.courses⟩
          | none => ⟨none, db.courses ++ [newC]⟩ := rfl
    rw [hstep, hfind]
  refine ⟨c2, hmem3.1, hmem3.2, hq2, ?_, ?_⟩
  · rw [hcc]
  · rw [hcc]

/-- Concrete database for the C8 witness. -/
def cxCourse : Course := ⟨cxCid, cxWatchUrl, 5, false⟩

def cxNewCourse : Course := ⟨cxSid, cxWatchUrl, 6, false⟩

def cxDb : Db := ⟨[cxCourse], [⟨cxQid, cxCid⟩]⟩

theorem C8_cacheHitReusesCourse_witness :
    (∃ c ∈ cxDb.courses, c.youtube_url = sanitizeYouTubeUrl cxUrlShort ∧
      hasQuestions cxDb c.id = true) ∧
    (∃ c, c ∈ cxDb.courses ∧ c.youtube_url = sanitizeYouTubeUrl cxUrlShort ∧
      hasQuestions cxDb c.id = true ∧
      (cacheAndCreate true none cxDb cxUrlShort cxNewCourse).response
        = some ⟨200, true, some true, some false, none, some c.id⟩ ∧
      (cacheAndCreate true none cxDb cxUrlShort cxNewCourse).courses
        = cxDb.courses) :=
  ⟨by decide, C8_cacheHitReusesCourse cxDb cxUrlShort cxNewCourse (by decide)⟩

/-- C9 (confirmed): a rating request is written only when the rating is an
integer between 1 and 5; anything else is answered 400 with no write, and
a valid authenticated rating is upserted keyed on user_id and course_id,
so the table keeps at most one row per user and course and a re-rating
overwrites the stored row. -/
theorem C9_ratingValidationAndUpsert (t : List RatingRow) (uid cid ctx : String)
    (eng : Option EngagementData) (rOpt : Option ℚ)
    (hk : keyUnique ratingKey t) :
    (ratingRejected rOpt = true →
      ∀ auth ce, ratingPost t auth ce cid rOpt ctx eng = (t, 400)) ∧
    (∀ r, rOpt = some r →
      (ratingRejected rOpt = false ↔ (r.isInt = true ∧ 1 ≤ r ∧ r ≤ 5))) ∧
    (∀ r, rOpt = some r → ratingRejected rOpt = false →
      (ratingPost t (some uid) true cid rOpt ctx eng).2 = 200 ∧
      keyUnique ratingKey (ratingPost t (some uid) true cid rOpt ctx eng).1 ∧
      lookupBy ratingKey (ratingPost t (some uid) true cid rOpt ctx eng).1
          (uid, cid)
        = some ⟨uid, cid, r, ctx,
            (eng.map EngagementData.timeSpentMinutes).getD 0,
            (eng.map EngagementData.questionsAnswered).getD 0,
            (eng.map EngagementData.completionPercentage).getD 0⟩) := by
  refine ⟨?_, ?_, ?_⟩
  · intro hrej auth ce
    unfold ratingPost
    rw [if_pos hrej]
  · intro r hr
    subst hr
    unfold ratingRejected
    rw [Bool.or_eq_false_iff, Bool.or_eq_false_iff, Bool.or_eq_false_iff]
    simp only [decide_eq_false_iff_not, Bool.not_eq_false']
    constructor
    · rintro ⟨⟨⟨h0, h1⟩, h5⟩, hInt⟩
      exact ⟨hInt, not_lt.mp h1, not_lt.mp h5⟩
    · rintro ⟨hInt, h1, h5⟩
      refine ⟨⟨⟨fun h0 => ?_, not_lt.mpr h1⟩, not_lt.mpr h5⟩, hInt⟩
      rw [h0] at h1
      norm_num at h1
  · intro r hr hrej
    subst hr
    unfold ratingPost
    rw [if_neg (by simp [hrej])]
    exact ⟨rfl, keyUnique_upsertBy ratingKey t _ hk, lookupBy_upsertBy ratingKey t _⟩

theorem C9_ratingValidationAndUpsert_witness :
    keyUnique ratingKey ([] : List RatingRow) ∧
    ((ratingRejected (some 4) = true →
      ∀ auth ce, ratingPost [] auth ce cxCid (some 4) cxCtx none = ([], 400)) ∧
    (∀ r, (some (4:ℚ) : Option ℚ) = some r →
      (ratingRejected (some 4) = false ↔ (r.isInt = true ∧ 1 ≤ r ∧ r ≤ 5))) ∧
    (∀ r, (some (4:ℚ) : Option ℚ) = some r → ratingRejected (some 4) = false →
      (ratingPost [] (some cxUid) true cxCid (some 4) cxCtx none).2 = 200 ∧
      keyUnique ratingKey (ratingPost [] (some cxUid) true cxCid (some 4) cxCtx none).1 ∧
      lookupBy ratingKey (ratingPost [] (some cxUid) true cxCid (some 4) cxCtx none).1
          (cxUid, cxCid)
        = some ⟨cxUid, cxCid, r, cxCtx,
            ((none : Option EngagementData).map EngagementData.timeSpentMinutes).getD 0,
            ((none : Option EngagementData).map EngagementData.questionsAnswered).getD 0,
            ((none : Option EngagementData).map EngagementData.completionPercentage).getD 0⟩)) :=
  ⟨List.Pairwise.nil,
    C9_ratingValidationAndUpsert [] cxUid cxCid cxCtx none (some 4) List.Pairwise.nil⟩

/-- C10 counterexample: this URL passes isValidYouTubeUrl through the second
pattern only, yet the edge function extractVideoId returns null, so the
request fails there with Invalid YouTube URL despite passing the
HTTP 400 format check. -/
theorem C10_counterexample :
    isValidYouTubeUrl cxUrl2 = true ∧ extractVideoId cxUrl2 = none ∧
    serveRejectsUrl cxUrl2 = true := by
  decide

/-- C10 (corrected): every URL accepted through the first validation pattern
(the one extractVideoId shares) yields a video id in the edge function and
is never rejected there; only URLs accepted solely through the second
pattern can reach the Invalid YouTube URL failure. -/
theorem C10_pattern1UrlsNeverRejected (url : String)
    (h : (matchPattern1 url.data).isSome = true) :
    (extractVideoId url).isSome = true ∧ isValidYouTubeUrl url = true ∧
    serveRejectsUrl url = false := by
  cases hm : matchPattern1 url.data with
  | none =>
    rw [hm] at h
    simp at h
  | some cap =>
    unfold serveRejectsUrl extractVideoId isValidYouTubeUrl
    rw [hm]
    simp

theorem C10_pattern1UrlsNeverRejected_witness :
    (matchPattern1 cxUrlShort.data).isSome = true ∧
    ((extractVideoId cxUrlShort).isSome = true ∧
      isValidYouTubeUrl cxUrlShort = true ∧ serveRejectsUrl cxUrlShort = false) :=
  ⟨by decide, C10_pattern1UrlsNeverRejected cxUrlShort (by decide)⟩
